import Mathlib

/-!
Verification of the line-based diff/patch engine of the TeXai repository.

The functions modelled here are:
* `computeDiff` and `getDiffSummary` (diffUtils module),
* the chunk grouping (`groupIntoChunks`, the `chunks` useMemo of `LatexEditor`),
* `applyChunkAction` (`LatexEditor`), returning the pair of rebuilt buffers
  that the source hands to its `onChange` / `onDiffChange` callbacks.

Strings are modelled by Lean `String`; JavaScript's `split('\n')`,
`indexOf`, `slice` on arrays and `slice(0, -1)` on strings are embedded
explicitly below.
-/

namespace TeXai

/-- The `type` field of the `DiffLine` interface:
`"added" | "removed" | "context" | "unchanged"`. -/
inductive DiffType where
  | added
  | removed
  | context
  | unchanged
deriving DecidableEq, Repr

/-- The `DiffLine` interface: a line's classification, its content and its
optional 1-based line numbers in the original and modified buffers. -/
structure DiffLine where
  type : DiffType
  content : String
  oldLineNum : Option Nat := none
  newLineNum : Option Nat := none
deriving DecidableEq, Repr

/-- JavaScript `string.split(sep)` for a single-character separator, on the
character list: `""` splits to `[""]`, and a trailing separator yields a
trailing empty piece (split is by separator count). -/
def splitOnChar (sep : Char) : List Char → List (List Char)
  | [] => [[]]
  | c :: cs =>
    let rest := splitOnChar sep cs
    if c = sep then
      [] :: rest
    else
      match rest with
      | [] => [[c]]
      | r :: rs => (c :: r) :: rs

/-- `original.split('\n')` lifted to `String`. -/
def splitLines (s : String) : List String :=
  (splitOnChar '\n' s.data).map String.mk

/-- Joining character-list lines with a separator character (the inverse of
`splitOnChar`). -/
def joinChars (sep : Char) : List (List Char) → List Char
  | [] => []
  | [l] => l
  | l :: ls => l ++ sep :: joinChars sep ls

/-- Joining string lines with `"\n"`, the sense in which the specification
says a list of lines is "joined with newlines". -/
def joinLines : List String → String
  | [] => ""
  | [s] => s
  | s :: rest => s ++ "\n" ++ joinLines rest

theorem splitOnChar_ne_nil (sep : Char) (cs : List Char) :
    splitOnChar sep cs ≠ [] := by
  cases cs with
  | nil => simp [splitOnChar]
  | cons c cs =>
    simp only [splitOnChar]
    by_cases h : c = sep
    · simp [h]
    · simp only [h, if_false]
      cases splitOnChar sep cs <;> simp

theorem joinChars_splitOnChar (sep : Char) (cs : List Char) :
    joinChars sep (splitOnChar sep cs) = cs := by
  induction cs with
  | nil => simp [splitOnChar, joinChars]
  | cons c cs ih =>
    simp only [splitOnChar]
    by_cases h : c = sep
    · subst h
      simp only [if_pos rfl]
      rcases hs : splitOnChar c cs with _ | ⟨r, rs⟩
      · exact absurd hs (splitOnChar_ne_nil c cs)
      · rw [hs] at ih
        cases rs with
        | nil => simpa [joinChars] using ih
        | cons r2 rs2 => simpa [joinChars] using ih
    · simp only [h, if_false]
      rcases hs : splitOnChar sep cs with _ | ⟨r, rs⟩
      · exact absurd hs (splitOnChar_ne_nil sep cs)
      · rw [hs] at ih
        cases rs with
        | nil => simpa [joinChars] using ih
        | cons r2 rs2 =>
          simp only [joinChars] at ih ⊢
          simp [ih]

theorem string_eq_of_data_eq {a b : String} (h : a.data = b.data) : a = b := by
  cases a; cases b; exact congrArg String.mk h

theorem data_mk (l : List Char) : (String.mk l).data = l := rfl

theorem joinLines_map_mk (ls : List (List Char)) :
    joinLines (ls.map String.mk) = String.mk (joinChars '\n' ls) := by
  induction ls with
  | nil => rfl
  | cons l ls ih =>
    cases ls with
    | nil => rfl
    | cons l2 ls2 =>
      apply string_eq_of_data_eq
      simp only [List.map_cons, joinLines, joinChars, String.data_append, data_mk] at ih ⊢
      simp [ih]

/-- Joining the split lines of a string with `"\n"` gives the string back. -/
theorem joinLines_splitLines (s : String) : joinLines (splitLines s) = s := by
  have h := joinLines_map_mk (splitOnChar '\n' s.data)
  rw [splitLines, h, joinChars_splitOnChar]

/-- JavaScript `array.indexOf(x)` on an array of strings: the first index
holding `x`, or `-1` when absent. -/
def jsIndexOf (l : List String) (x : String) : Int :=
  match l.findIdx? (fun y => y = x) with
  | some k => (k : Int)
  | none => -1

theorem jsIndexOf_eq_of_findIdx? {l : List String} {x : String} {k : Nat}
    (hf : l.findIdx? (fun y => y = x) = some k) : jsIndexOf l x = k := by
  unfold jsIndexOf; rw [hf]

theorem jsIndexOf_eq_neg_one_of_none {l : List String} {x : String}
    (hf : l.findIdx? (fun y => y = x) = none) : jsIndexOf l x = -1 := by
  unfold jsIndexOf; rw [hf]

theorem jsIndexOf_findIdx?_of_nonneg {l : List String} {x : String}
    (h : 0 ≤ jsIndexOf l x) :
    l.findIdx? (fun y => y = x) = some (jsIndexOf l x).toNat := by
  rcases hf : l.findIdx? (fun y => y = x) with _ | k
  · rw [jsIndexOf_eq_neg_one_of_none hf] at h; omega
  · rw [jsIndexOf_eq_of_findIdx? hf]
    simp

theorem jsIndexOf_toNat_lt {l : List String} {x : String}
    (h : 0 ≤ jsIndexOf l x) : (jsIndexOf l x).toNat < l.length := by
  rcases List.findIdx?_eq_some_iff_getElem.mp (jsIndexOf_findIdx?_of_nonneg h) with ⟨hk, _⟩
  exact hk

theorem jsIndexOf_getElem {l : List String} {x : String}
    (h : 0 ≤ jsIndexOf l x) :
    l.getD (jsIndexOf l x).toNat "" = x := by
  rcases List.findIdx?_eq_some_iff_getElem.mp (jsIndexOf_findIdx?_of_nonneg h) with
    ⟨hk, hp, _⟩
  rw [List.getD_eq_getElem _ _ hk]
  simpa using hp

theorem jsIndexOf_eq_neg_one_or_nonneg (l : List String) (x : String) :
    jsIndexOf l x = -1 ∨ 0 ≤ jsIndexOf l x := by
  rcases hf : l.findIdx? (fun y => y = x) with _ | k
  · exact Or.inl (jsIndexOf_eq_neg_one_of_none hf)
  · rw [jsIndexOf_eq_of_findIdx? hf]
    exact Or.inr (by positivity)

theorem one_le_jsIndexOf_toNat {l : List String} {x : String}
    (hne : l.getD 0 "" ≠ x) (h : 0 ≤ jsIndexOf l x) (h0 : 0 < l.length) :
    1 ≤ (jsIndexOf l x).toNat := by
  rcases List.findIdx?_eq_some_iff_getElem.mp (jsIndexOf_findIdx?_of_nonneg h) with
    ⟨hk, hp, _⟩
  by_contra hlt
  have hz : (jsIndexOf l x).toNat = 0 := by omega
  simp only [hz, decide_eq_true_eq] at hp
  apply hne
  rw [List.getD_eq_getElem _ _ h0]
  exact hp

/-- The block of Added lines pushed by the `for` loop of the
`foundInMod` branch of `computeDiff`: lines `modified[j .. j+k)`, with
new line numbers `newN, newN+1, ...`. -/
def addedRun (mod : List String) (j k newN : Nat) : List DiffLine :=
  (List.range k).map fun t =>
    { type := .added, content := mod.getD (j + t) "", newLineNum := some (newN + t) }

/-- The block of Removed lines pushed by the `for` loop of the
`foundInOrig` branch of `computeDiff`. -/
def removedRun (orig : List String) (i k oldN : Nat) : List DiffLine :=
  (List.range k).map fun t =>
    { type := .removed, content := orig.getD (i + t) "", oldLineNum := some (oldN + t) }

theorem window_head (L : List String) (p : Nat) (hp : p < L.length) :
    0 < ((L.drop p).take 10).length ∧
      ((L.drop p).take 10).getD 0 "" = L.getD p "" := by
  constructor
  · simp only [List.length_take, List.length_drop]
    omega
  · rw [List.getD_eq_getElem _ _
      (by simp only [List.length_take, List.length_drop]; omega),
      List.getElem_take, List.getElem_drop, List.getD_eq_getElem _ _ (by omega)]
    simp

/-- The main `while` loop of `computeDiff`, with cursors `i`, `j` and the
running 1-based line counters `oldN`, `newN`. -/
def diffLoop (orig mod : List String) (i j oldN newN : Nat) : List DiffLine :=
  if h₁ : i < orig.length ∨ j < mod.length then
    if h₂ : orig.length ≤ i then
      -- Only new lines remaining
      { type := .added, content := mod.getD j "", newLineNum := some newN } ::
        diffLoop orig mod i (j + 1) oldN (newN + 1)
    else if h₃ : mod.length ≤ j then
      -- Only removed lines remaining
      { type := .removed, content := orig.getD i "", oldLineNum := some oldN } ::
        diffLoop orig mod (i + 1) j (oldN + 1) newN
    else if h₄ : orig.getD i "" = mod.getD j "" then
      -- Identity
      { type := .unchanged, content := orig.getD i "",
        oldLineNum := some oldN, newLineNum := some newN } ::
        diffLoop orig mod (i + 1) (j + 1) (oldN + 1) (newN + 1)
    else
      -- Search for best match
      let foundInMod := jsIndexOf ((mod.drop j).take 10) (orig.getD i "")
      let foundInOrig := jsIndexOf ((orig.drop i).take 10) (mod.getD j "")
      if h₅ : foundInMod = -1 ∧ foundInOrig = -1 then
        -- Direct replacement
        { type := .removed, content := orig.getD i "", oldLineNum := some oldN } ::
          { type := .added, content := mod.getD j "", newLineNum := some newN } ::
          diffLoop orig mod (i + 1) (j + 1) (oldN + 1) (newN + 1)
      else if h₆ : 0 ≤ foundInMod ∧ (foundInOrig = -1 ∨ foundInMod ≤ foundInOrig) then
        -- Added lines before match
        addedRun mod j foundInMod.toNat newN ++
          diffLoop orig mod i (j + foundInMod.toNat) oldN (newN + foundInMod.toNat)
      else
        -- Removed lines before match
        removedRun orig i foundInOrig.toNat oldN ++
          diffLoop orig mod (i + foundInOrig.toNat) j (oldN + foundInOrig.toNat) newN
  else []
termination_by orig.length - i + (mod.length - j)
decreasing_by
  · omega
  · omega
  · omega
  · omega
  · have hw := window_head mod j (by omega)
    have h1 := one_le_jsIndexOf_toNat (by rw [hw.2]; exact fun hc => h₄ hc.symm) h₆.1 hw.1
    omega
  · have h3 : 0 ≤ jsIndexOf ((orig.drop i).take 10) (mod.getD j "") := by
      rcases jsIndexOf_eq_neg_one_or_nonneg ((orig.drop i).take 10) (mod.getD j "") with
        hf | hf
      · exfalso
        rcases jsIndexOf_eq_neg_one_or_nonneg ((mod.drop j).take 10) (orig.getD i "") with
          hg | hg
        · exact h₅ ⟨hg, hf⟩
        · exact h₆ ⟨hg, Or.inl hf⟩
      · exact hf
    have hw := window_head orig i (by omega)
    have h1 := one_le_jsIndexOf_toNat (by rw [hw.2]; exact h₄) h3 hw.1
    omega

theorem diffLoop_stop {orig mod : List String} {i j : Nat} (oldN newN : Nat)
    (h2 : orig.length ≤ i) (h3 : mod.length ≤ j) :
    diffLoop orig mod i j oldN newN = [] := by
  rw [diffLoop.eq_def]
  exact dif_neg (by omega)

theorem diffLoop_addTail {orig mod : List String} {i j : Nat} (oldN newN : Nat)
    (h2 : orig.length ≤ i) (h3 : j < mod.length) :
    diffLoop orig mod i j oldN newN =
      { type := .added, content := mod.getD j "", newLineNum := some newN } ::
        diffLoop orig mod i (j + 1) oldN (newN + 1) := by
  conv_lhs => rw [diffLoop.eq_def]
  simp only [dif_pos (Or.inr h3), dif_pos h2]

theorem diffLoop_remTail {orig mod : List String} {i j : Nat} (oldN newN : Nat)
    (h2 : i < orig.length) (h3 : mod.length ≤ j) :
    diffLoop orig mod i j oldN newN =
      { type := .removed, content := orig.getD i "", oldLineNum := some oldN } ::
        diffLoop orig mod (i + 1) j (oldN + 1) newN := by
  conv_lhs => rw [diffLoop.eq_def]
  simp only [dif_pos (Or.inl h2), dif_neg (by omega : ¬orig.length ≤ i), dif_pos h3]

theorem diffLoop_unchanged {orig mod : List String} {i j : Nat} (oldN newN : Nat)
    (h2 : i < orig.length) (h3 : j < mod.length)
    (heq : orig.getD i "" = mod.getD j "") :
    diffLoop orig mod i j oldN newN =
      { type := .unchanged, content := orig.getD i "",
        oldLineNum := some oldN, newLineNum := some newN } ::
        diffLoop orig mod (i + 1) (j + 1) (oldN + 1) (newN + 1) := by
  conv_lhs => rw [diffLoop.eq_def]
  simp only [dif_pos (Or.inl h2), dif_neg (by omega : ¬orig.length ≤ i),
    dif_neg (by omega : ¬mod.length ≤ j), dif_pos heq]

theorem diffLoop_replace {orig mod : List String} {i j : Nat} (oldN newN : Nat)
    (h2 : i < orig.length) (h3 : j < mod.length)
    (hne : ¬orig.getD i "" = mod.getD j "")
    (hm : jsIndexOf ((mod.drop j).take 10) (orig.getD i "") = -1)
    (ho : jsIndexOf ((orig.drop i).take 10) (mod.getD j "") = -1) :
    diffLoop orig mod i j oldN newN =
      { type := .removed, content := orig.getD i "", oldLineNum := some oldN } ::
        { type := .added, content := mod.getD j "", newLineNum := some newN } ::
        diffLoop orig mod (i + 1) (j + 1) (oldN + 1) (newN + 1) := by
  have h5 : jsIndexOf ((mod.drop j).take 10) (orig.getD i "") = -1 ∧
      jsIndexOf ((orig.drop i).take 10) (mod.getD j "") = -1 := ⟨hm, ho⟩
  conv_lhs => rw [diffLoop.eq_def]
  simp only [dif_pos (Or.inl h2), dif_neg (by omega : ¬orig.length ≤ i),
    dif_neg (by omega : ¬mod.length ≤ j), dif_neg hne, dif_pos h5]

theorem diffLoop_insert {orig mod : List String} {i j : Nat} (oldN newN : Nat)
    (h2 : i < orig.length) (h3 : j < mod.length)
    (hne : ¬orig.getD i "" = mod.getD j "")
    (hc : 0 ≤ jsIndexOf ((mod.drop j).take 10) (orig.getD i "") ∧
      (jsIndexOf ((orig.drop i).take 10) (mod.getD j "") = -1 ∨
        jsIndexOf ((mod.drop j).take 10) (orig.getD i "") ≤
          jsIndexOf ((orig.drop i).take 10) (mod.getD j ""))) :
    diffLoop orig mod i j oldN newN =
      addedRun mod j (jsIndexOf ((mod.drop j).take 10) (orig.getD i "")).toNat newN ++
        diffLoop orig mod i
          (j + (jsIndexOf ((mod.drop j).take 10) (orig.getD i "")).toNat) oldN
          (newN + (jsIndexOf ((mod.drop j).take 10) (orig.getD i "")).toNat) := by
  have h5 : ¬(jsIndexOf ((mod.drop j).take 10) (orig.getD i "") = -1 ∧
      jsIndexOf ((orig.drop i).take 10) (mod.getD j "") = -1) := by
    intro hcc
    rw [hcc.1] at hc
    exact absurd hc.1 (by norm_num)
  conv_lhs => rw [diffLoop.eq_def]
  simp only [dif_pos (Or.inl h2), dif_neg (by omega : ¬orig.length ≤ i),
    dif_neg (by omega : ¬mod.length ≤ j), dif_neg hne, dif_neg h5, dif_pos hc]

theorem diffLoop_delete {orig mod : List String} {i j : Nat} (oldN newN : Nat)
    (h2 : i < orig.length) (h3 : j < mod.length)
    (hne : ¬orig.getD i "" = mod.getD j "")
    (hn5 : ¬(jsIndexOf ((mod.drop j).take 10) (orig.getD i "") = -1 ∧
      jsIndexOf ((orig.drop i).take 10) (mod.getD j "") = -1))
    (hn6 : ¬(0 ≤ jsIndexOf ((mod.drop j).take 10) (orig.getD i "") ∧
      (jsIndexOf ((orig.drop i).take 10) (mod.getD j "") = -1 ∨
        jsIndexOf ((mod.drop j).take 10) (orig.getD i "") ≤
          jsIndexOf ((orig.drop i).take 10) (mod.getD j "")))) :
    diffLoop orig mod i j oldN newN =
      removedRun orig i (jsIndexOf ((orig.drop i).take 10) (mod.getD j "")).toNat oldN ++
        diffLoop orig mod
          (i + (jsIndexOf ((orig.drop i).take 10) (mod.getD j "")).toNat) j
          (oldN + (jsIndexOf ((orig.drop i).take 10) (mod.getD j "")).toNat) newN := by
  conv_lhs => rw [diffLoop.eq_def]
  simp only [dif_pos (Or.inl h2), dif_neg (by omega : ¬orig.length ≤ i),
    dif_neg (by omega : ¬mod.length ≤ j), dif_neg hne, dif_neg hn5, dif_neg hn6]

/-- `computeDiff(original, modified)`: split both buffers on `'\n'` and run
the greedy bounded-lookahead loop. -/
def computeDiff (original modified : String) : List DiffLine :=
  let originalLines := splitLines original
  let modifiedLines := splitLines modified
  diffLoop originalLines modifiedLines 0 0 1 1

/-- The contents of the Removed and Unchanged lines of a diff, in emission
order (the lines that reconstruct the original buffer). -/
def origContents (diff : List DiffLine) : List String :=
  diff.filterMap fun l =>
    match l.type with
    | .removed => some l.content
    | .unchanged => some l.content
    | _ => none

/-- The contents of the Added and Unchanged lines of a diff, in emission
order (the lines that reconstruct the modified buffer). -/
def modContents (diff : List DiffLine) : List String :=
  diff.filterMap fun l =>
    match l.type with
    | .added => some l.content
    | .unchanged => some l.content
    | _ => none

theorem range_map_getD {α : Type} (l : List α) (i k : Nat) (d : α)
    (h : i + k ≤ l.length) :
    (List.range k).map (fun t => l.getD (i + t) d) = (l.drop i).take k := by
  apply List.ext_getElem
  · simp
    omega
  · intro n h1 h2
    simp only [List.length_map, List.length_range] at h1
    simp only [List.getElem_map, List.getElem_range, List.getElem_take, List.getElem_drop]
    rw [List.getD_eq_getElem _ _ (by omega)]

theorem origContents_addedRun (mod : List String) (j k n : Nat) :
    origContents (addedRun mod j k n) = [] := by
  induction k with
  | zero => rfl
  | succ k ih =>
    simp only [origContents, addedRun, List.range_succ, List.map_append,
      List.filterMap_append] at ih ⊢
    simp [ih]

theorem modContents_removedRun (orig : List String) (i k n : Nat) :
    modContents (removedRun orig i k n) = [] := by
  induction k with
  | zero => rfl
  | succ k ih =>
    simp only [modContents, removedRun, List.range_succ, List.map_append,
      List.filterMap_append] at ih ⊢
    simp [ih]

theorem origContents_removedRun (orig : List String) (i k n : Nat)
    (h : i + k ≤ orig.length) :
    origContents (removedRun orig i k n) = (orig.drop i).take k := by
  rw [← range_map_getD orig i k "" h]
  induction k with
  | zero => rfl
  | succ k ih =>
    simp only [origContents, removedRun, List.range_succ, List.map_append,
      List.filterMap_append] at ih ⊢
    rw [ih (by omega)]
    simp

theorem modContents_addedRun (mod : List String) (j k n : Nat)
    (h : j + k ≤ mod.length) :
    modContents (addedRun mod j k n) = (mod.drop j).take k := by
  rw [← range_map_getD mod j k "" h]
  induction k with
  | zero => rfl
  | succ k ih =>
    simp only [modContents, addedRun, List.range_succ, List.map_append,
      List.filterMap_append] at ih ⊢
    rw [ih (by omega)]
    simp

theorem origContents_cons_keep {l : DiffLine} (ls : List DiffLine)
    (h : l.type = .removed ∨ l.type = .unchanged) :
    origContents (l :: ls) = l.content :: origContents ls := by
  simp only [origContents, List.filterMap_cons]
  rcases h with h | h <;> simp [h]

theorem origContents_cons_skip {l : DiffLine} (ls : List DiffLine)
    (h : l.type = .added ∨ l.type = .context) :
    origContents (l :: ls) = origContents ls := by
  simp only [origContents, List.filterMap_cons]
  rcases h with h | h <;> simp [h]

theorem modContents_cons_keep {l : DiffLine} (ls : List DiffLine)
    (h : l.type = .added ∨ l.type = .unchanged) :
    modContents (l :: ls) = l.content :: modContents ls := by
  simp only [modContents, List.filterMap_cons]
  rcases h with h | h <;> simp [h]

theorem modContents_cons_skip {l : DiffLine} (ls : List DiffLine)
    (h : l.type = .removed ∨ l.type = .context) :
    modContents (l :: ls) = modContents ls := by
  simp only [modContents, List.filterMap_cons]
  rcases h with h | h <;> simp [h]

theorem origContents_append (l1 l2 : List DiffLine) :
    origContents (l1 ++ l2) = origContents l1 ++ origContents l2 := by
  simp [origContents]

theorem modContents_append (l1 l2 : List DiffLine) :
    modContents (l1 ++ l2) = modContents l1 ++ modContents l2 := by
  simp [modContents]

theorem origContents_diffLoop (orig mod : List String) :
    ∀ n i j oldN newN, orig.length - i + (mod.length - j) ≤ n →
      origContents (diffLoop orig mod i j oldN newN) = orig.drop i := by
  intro n
  induction n with
  | zero =>
    intro i j a b hn
    rw [diffLoop_stop a b (by omega) (by omega), List.drop_eq_nil_of_le (by omega)]
    rfl
  | succ n ih =>
    intro i j a b hn
    by_cases h2 : i < orig.length
    · by_cases h3 : j < mod.length
      · by_cases h4 : orig.getD i "" = mod.getD j ""
        · rw [diffLoop_unchanged a b h2 h3 h4,
            origContents_cons_keep _ (Or.inr rfl),
            ih (i + 1) (j + 1) (a + 1) (b + 1) (by omega),
            List.drop_eq_getElem_cons h2, List.getD_eq_getElem _ _ h2]
        · rcases jsIndexOf_eq_neg_one_or_nonneg ((mod.drop j).take 10) (orig.getD i "")
            with hm | hm
          · rcases jsIndexOf_eq_neg_one_or_nonneg ((orig.drop i).take 10) (mod.getD j "")
              with ho | ho
            · rw [diffLoop_replace a b h2 h3 h4 hm ho,
                origContents_cons_keep _ (Or.inl rfl),
                origContents_cons_skip _ (Or.inl rfl),
                ih (i + 1) (j + 1) (a + 1) (b + 1) (by omega),
                List.drop_eq_getElem_cons h2, List.getD_eq_getElem _ _ h2]
            · -- foundInMod = -1, foundInOrig ≥ 0: the Removed-run branch
              have hk1 : 1 ≤ (jsIndexOf ((orig.drop i).take 10) (mod.getD j "")).toNat := by
                rcases window_head orig i h2 with ⟨hw0, hwh⟩
                exact one_le_jsIndexOf_toNat (by rw [hwh]; exact h4) ho hw0
              have hklt := jsIndexOf_toNat_lt ho
              simp only [List.length_take, List.length_drop] at hklt
              rw [diffLoop_delete a b h2 h3 h4 (by rintro ⟨_, hc⟩; rw [hc] at ho; omega)
                  (by rintro ⟨hc, _⟩; rw [hm] at hc; norm_num at hc),
                origContents_append, origContents_removedRun _ _ _ _ (by omega),
                ih _ j _ b (by omega),
                ← List.drop_drop, List.take_append_drop]
          · by_cases hcmp : jsIndexOf ((orig.drop i).take 10) (mod.getD j "") = -1 ∨
                jsIndexOf ((mod.drop j).take 10) (orig.getD i "") ≤
                  jsIndexOf ((orig.drop i).take 10) (mod.getD j "")
            · -- the Added-run branch: no Removed/Unchanged lines emitted
              have hk1 : 1 ≤ (jsIndexOf ((mod.drop j).take 10) (orig.getD i "")).toNat := by
                rcases window_head mod j h3 with ⟨hw0, hwh⟩
                exact one_le_jsIndexOf_toNat
                  (by rw [hwh]; exact fun hc => h4 hc.symm) hm hw0
              rw [diffLoop_insert a b h2 h3 h4 ⟨hm, hcmp⟩,
                origContents_append, origContents_addedRun,
                ih i _ a _ (by omega)]
              rfl
            · -- both found, original match strictly closer: the Removed-run branch
              push_neg at hcmp
              have ho : 0 ≤ jsIndexOf ((orig.drop i).take 10) (mod.getD j "") := by
                rcases jsIndexOf_eq_neg_one_or_nonneg ((orig.drop i).take 10)
                  (mod.getD j "") with hcc | hcc
                · exact absurd hcc hcmp.1
                · exact hcc
              have hk1 : 1 ≤ (jsIndexOf ((orig.drop i).take 10) (mod.getD j "")).toNat := by
                rcases window_head orig i h2 with ⟨hw0, hwh⟩
                exact one_le_jsIndexOf_toNat (by rw [hwh]; exact h4) ho hw0
              have hklt := jsIndexOf_toNat_lt ho
              simp only [List.length_take, List.length_drop] at hklt
              rw [diffLoop_delete a b h2 h3 h4
                  (by rintro ⟨hc, _⟩; rw [hc] at hm; norm_num at hm)
                  (by rintro ⟨_, hc⟩; rcases hc with hc | hc;
                      · exact absurd hc hcmp.1
                      · exact absurd hc (by push_neg; exact hcmp.2)),
                origContents_append, origContents_removedRun _ _ _ _ (by omega),
                ih _ j _ b (by omega),
                ← List.drop_drop, List.take_append_drop]
      · rw [diffLoop_remTail a b h2 (by omega),
          origContents_cons_keep _ (Or.inl rfl),
          ih (i + 1) j (a + 1) b (by omega),
          List.drop_eq_getElem_cons h2, List.getD_eq_getElem _ _ h2]
    · by_cases h3 : j < mod.length
      · rw [diffLoop_addTail a b (by omega) h3,
          origContents_cons_skip _ (Or.inl rfl)]
        exact ih i (j + 1) a (b + 1) (by omega)
      · rw [diffLoop_stop a b (by omega) (by omega), List.drop_eq_nil_of_le (by omega)]
        rfl

theorem modContents_diffLoop (orig mod : List String) :
    ∀ n i j oldN newN, orig.length - i + (mod.length - j) ≤ n →
      modContents (diffLoop orig mod i j oldN newN) = mod.drop j := by
  intro n
  induction n with
  | zero =>
    intro i j a b hn
    rw [diffLoop_stop a b (by omega) (by omega), List.drop_eq_nil_of_le (by omega)]
    rfl
  | succ n ih =>
    intro i j a b hn
    by_cases h2 : i < orig.length
    · by_cases h3 : j < mod.length
      · by_cases h4 : orig.getD i "" = mod.getD j ""
        · rw [diffLoop_unchanged a b h2 h3 h4,
            modContents_cons_keep _ (Or.inr rfl),
            ih (i + 1) (j + 1) (a + 1) (b + 1) (by omega)]
          simp only [h4, List.drop_eq_getElem_cons h3, List.getD_eq_getElem _ _ h3]
        · rcases jsIndexOf_eq_neg_one_or_nonneg ((mod.drop j).take 10) (orig.getD i "")
            with hm | hm
          · rcases jsIndexOf_eq_neg_one_or_nonneg ((orig.drop i).take 10) (mod.getD j "")
              with ho | ho
            · rw [diffLoop_replace a b h2 h3 h4 hm ho,
                modContents_cons_skip _ (Or.inl rfl),
                modContents_cons_keep _ (Or.inl rfl),
                ih (i + 1) (j + 1) (a + 1) (b + 1) (by omega),
                List.drop_eq_getElem_cons h3, List.getD_eq_getElem _ _ h3]
            · -- foundInMod = -1, foundInOrig ≥ 0: the Removed-run branch
              have hk1 : 1 ≤ (jsIndexOf ((orig.drop i).take 10) (mod.getD j "")).toNat := by
                rcases window_head orig i h2 with ⟨hw0, hwh⟩
                exact one_le_jsIndexOf_toNat (by rw [hwh]; exact h4) ho hw0
              have hklt := jsIndexOf_toNat_lt ho
              simp only [List.length_take, List.length_drop] at hklt
              rw [diffLoop_delete a b h2 h3 h4 (by rintro ⟨_, hc⟩; rw [hc] at ho; omega)
                  (by rintro ⟨hc, _⟩; rw [hm] at hc; norm_num at hc),
                modContents_append, modContents_removedRun,
                ih _ j _ b (by omega)]
              rfl
          · by_cases hcmp : jsIndexOf ((orig.drop i).take 10) (mod.getD j "") = -1 ∨
                jsIndexOf ((mod.drop j).take 10) (orig.getD i "") ≤
                  jsIndexOf ((orig.drop i).take 10) (mod.getD j "")
            · -- the Added-run branch
              have hk1 : 1 ≤ (jsIndexOf ((mod.drop j).take 10) (orig.getD i "")).toNat := by
                rcases window_head mod j h3 with ⟨hw0, hwh⟩
                exact one_le_jsIndexOf_toNat
                  (by rw [hwh]; exact fun hc => h4 hc.symm) hm hw0
              have hklt := jsIndexOf_toNat_lt hm
              simp only [List.length_take, List.length_drop] at hklt
              rw [diffLoop_insert a b h2 h3 h4 ⟨hm, hcmp⟩,
                modContents_append, modContents_addedRun _ _ _ _ (by omega),
                ih i _ a _ (by omega),
                ← List.drop_drop, List.take_append_drop]
            · -- both found, original match strictly closer: the Removed-run branch
              push_neg at hcmp
              have ho : 0 ≤ jsIndexOf ((orig.drop i).take 10) (mod.getD j "") := by
                rcases jsIndexOf_eq_neg_one_or_nonneg ((orig.drop i).take 10)
                  (mod.getD j "") with hcc | hcc
                · exact absurd hcc hcmp.1
                · exact hcc
              have hk1 : 1 ≤ (jsIndexOf ((orig.drop i).take 10) (mod.getD j "")).toNat := by
                rcases window_head orig i h2 with ⟨hw0, hwh⟩
                exact one_le_jsIndexOf_toNat (by rw [hwh]; exact h4) ho hw0
              have hklt := jsIndexOf_toNat_lt ho
              simp only [List.length_take, List.length_drop] at hklt
              rw [diffLoop_delete a b h2 h3 h4
                  (by rintro ⟨hc, _⟩; rw [hc] at hm; norm_num at hm)
                  (by rintro ⟨_, hc⟩; rcases hc with hc | hc;
                      · exact absurd hc hcmp.1
                      · exact absurd hc (by push_neg; exact hcmp.2)),
                modContents_append, modContents_removedRun,
                ih _ j _ b (by omega)]
              rfl
      · rw [diffLoop_remTail a b h2 (by omega),
          modContents_cons_skip _ (Or.inl rfl)]
        exact ih (i + 1) j (a + 1) b (by omega)
    · by_cases h3 : j < mod.length
      · rw [diffLoop_addTail a b (by omega) h3,
          modContents_cons_keep _ (Or.inl rfl),
          ih i (j + 1) a (b + 1) (by omega),
          List.drop_eq_getElem_cons h3, List.getD_eq_getElem _ _ h3]
      · rw [diffLoop_stop a b (by omega) (by omega), List.drop_eq_nil_of_le (by omega)]
        rfl

theorem diffLoop_self (L : List String) :
    ∀ n i c, L.length - i ≤ n →
      diffLoop L L i i c c =
        (List.range (L.length - i)).map fun k =>
          { type := .unchanged, content := L.getD (i + k) "",
            oldLineNum := some (c + k), newLineNum := some (c + k) } := by
  intro n
  induction n with
  | zero =>
    intro i c hn
    rw [diffLoop_stop c c (by omega) (by omega), show L.length - i = 0 from by omega]
    rfl
  | succ n ih =>
    intro i c hn
    by_cases h2 : i < L.length
    · rw [diffLoop_unchanged c c h2 h2 rfl, ih (i + 1) (c + 1) (by omega),
        show L.length - i = (L.length - (i + 1)) + 1 from by omega,
        List.range_succ_eq_map]
      simp only [List.map_cons, List.map_map]
      congr 1
      apply List.map_congr_left
      intro k hk
      have e1 : i + 1 + k = i + (k + 1) := by omega
      have e2 : c + 1 + k = c + (k + 1) := by omega
      simp [e1, e2]
    · rw [diffLoop_stop c c (by omega) (by omega), show L.length - i = 0 from by omega]
      rfl

/-- The record returned by `getDiffSummary`. -/
structure DiffSummary where
  added : Nat
  removed : Nat
deriving DecidableEq, Repr

/-- `getDiffSummary(diff)`: the counts of Added and Removed lines. -/
def getDiffSummary (diff : List DiffLine) : DiffSummary :=
  { added := (diff.filter fun d => d.type = .added).length,
    removed := (diff.filter fun d => d.type = .removed).length }

/-- C1: for every pair of strings A and B, joining the contents of the
Removed and Unchanged lines of `computeDiff A B` (in emission order) with
`"\n"` reconstructs A exactly, and joining the contents of the Added and
Unchanged lines reconstructs B exactly. -/
theorem computeDiff_reconstruction (A B : String) :
    joinLines (origContents (computeDiff A B)) = A ∧
    joinLines (modContents (computeDiff A B)) = B := by
  constructor
  · rw [show computeDiff A B = diffLoop (splitLines A) (splitLines B) 0 0 1 1 from rfl,
      origContents_diffLoop (splitLines A) (splitLines B)
        ((splitLines A).length + (splitLines B).length) 0 0 1 1 (by omega),
      List.drop_zero, joinLines_splitLines]
  · rw [show computeDiff A B = diffLoop (splitLines A) (splitLines B) 0 0 1 1 from rfl,
      modContents_diffLoop (splitLines A) (splitLines B)
        ((splitLines A).length + (splitLines B).length) 0 0 1 1 (by omega),
      List.drop_zero, joinLines_splitLines]

/-- C8: `computeDiff A A` yields only Unchanged lines, exactly one per line
of A in order (with that line's text), and on each line the old line number
equals the new line number, both being the 1-based position in A. -/
theorem computeDiff_identity (A : String) :
    computeDiff A A =
      (List.range (splitLines A).length).map fun k =>
        { type := .unchanged, content := (splitLines A).getD k "",
          oldLineNum := some (k + 1), newLineNum := some (k + 1) } := by
  rw [show computeDiff A A = diffLoop (splitLines A) (splitLines A) 0 0 1 1 from rfl,
    diffLoop_self (splitLines A) (splitLines A).length 0 1 (by omega)]
  simp only [Nat.sub_zero]
  refine List.map_congr_left fun k hk => ?_
  have e1 : 0 + k = k := by omega
  have e2 : 1 + k = k + 1 := by omega
  simp [e1, e2]

/-- C9: `computeDiff "" ""` yields exactly one diff line: Unchanged, with
empty text and both line numbers 1. -/
theorem computeDiff_empty_empty :
    computeDiff "" "" =
      [{ type := .unchanged, content := "", oldLineNum := some 1,
         newLineNum := some 1 }] := by
  rw [show computeDiff "" "" = diffLoop (splitLines "") (splitLines "") 0 0 1 1 from rfl,
    diffLoop_self (splitLines "") 1 0 1 (by decide)]
  rfl

theorem computeDiff_empty_hello_eval :
    computeDiff "" "Hello" =
      [{ type := .removed, content := "", oldLineNum := some 1 },
       { type := .added, content := "Hello", newLineNum := some 1 }] := by
  rw [show computeDiff "" "Hello" = diffLoop [""] ["Hello"] 0 0 1 1 from rfl,
    diffLoop_replace 1 1 (by decide) (by decide) (by decide) (by decide) (by decide),
    diffLoop_stop 2 2 (by decide) (by decide)]
  rfl

/-- C6 counterexample: `computeDiff "" "Hello"` is NOT the single-line diff
`[Added "Hello"]` with summary `{added := 1, removed := 0}`: the original's
single empty line is first emitted as Removed. -/
theorem computeDiff_empty_hello_claim_false :
    ¬(computeDiff "" "Hello" =
        [{ type := .added, content := "Hello", newLineNum := some 1 }] ∧
      getDiffSummary (computeDiff "" "Hello") = { added := 1, removed := 0 }) := by
  rw [computeDiff_empty_hello_eval]
  decide

/-- C6 amended: `computeDiff "" "Hello"` yields `[Removed "", Added "Hello"]`
(the original's single empty line is emitted as Removed, then the addition),
and `getDiffSummary` of it is `{added := 1, removed := 1}`. -/
theorem computeDiff_empty_hello :
    computeDiff "" "Hello" =
      [{ type := .removed, content := "", oldLineNum := some 1 },
       { type := .added, content := "Hello", newLineNum := some 1 }] ∧
    getDiffSummary (computeDiff "" "Hello") = { added := 1, removed := 1 } := by
  refine ⟨computeDiff_empty_hello_eval, ?_⟩
  rw [computeDiff_empty_hello_eval]
  decide

/-- The coarse category used by the grouping:
`line.type === 'unchanged' ? 'unchanged' : 'change'`. -/
inductive ChunkType where
  | unchanged
  | change
deriving DecidableEq, Repr

/-- The `DiffChunk` interface of `LatexEditor`. -/
structure DiffChunk where
  id : Nat
  type : ChunkType
  lines : List DiffLine
deriving DecidableEq, Repr

/-- `const lineType = line.type === 'unchanged' ? 'unchanged' : 'change'`. -/
def lineCategory (l : DiffLine) : ChunkType :=
  if l.type = .unchanged then .unchanged else .change

/-- The mutable state of the `chunks` useMemo loop of `LatexEditor`:
`result`, `currentLines`, `currentType` (null before the first line) and
`chunkId`. -/
structure GroupState where
  result : List DiffChunk
  currentLines : List DiffLine
  currentType : Option ChunkType
  chunkId : Nat

/-- One iteration of the `diff.forEach` loop: if the category changes,
push the pending chunk and start a new one; always append the line to the
current run. -/
def groupStep (st : GroupState) (line : DiffLine) : GroupState :=
  let lineType := lineCategory line
  let currentType := st.currentType.getD lineType
  if lineType ≠ currentType then
    { result := st.result ++
        [{ id := st.chunkId, type := currentType, lines := st.currentLines }],
      currentLines := [line],
      currentType := some lineType,
      chunkId := st.chunkId + 1 }
  else
    { st with currentLines := st.currentLines ++ [line],
              currentType := some currentType }

/-- The epilogue of the grouping loop:
`if (currentLines.length > 0 && currentType) result.push(...)`. -/
def groupFinish (st : GroupState) : List DiffChunk :=
  match st.currentType with
  | some t =>
    if 0 < st.currentLines.length then
      st.result ++ [{ id := st.chunkId, type := t, lines := st.currentLines }]
    else st.result
  | none => st.result

/-- The `chunks` useMemo of `LatexEditor` (the spec's `groupIntoChunks`):
fold the grouping step over the diff, then push the final pending chunk. -/
def groupIntoChunks (diff : List DiffLine) : List DiffChunk :=
  groupFinish (diff.foldl groupStep
    { result := [], currentLines := [], currentType := none, chunkId := 0 })

/-- The invariant of the grouping loop after processing `processed`. -/
def GroupInv (processed : List DiffLine) (st : GroupState) : Prop :=
  st.result.flatMap (fun c => c.lines) ++ st.currentLines = processed ∧
  st.chunkId = st.result.length ∧
  st.result.map (fun c => c.id) = List.range st.result.length ∧
  (∀ c ∈ st.result, c.lines ≠ [] ∧ ∀ l ∈ c.lines, lineCategory l = c.type) ∧
  List.Chain' (fun a b => a.type ≠ b.type) st.result ∧
  (match st.currentType with
   | none => st.currentLines = [] ∧ st.result = []
   | some t =>
      st.currentLines ≠ [] ∧ (∀ l ∈ st.currentLines, lineCategory l = t) ∧
      (∀ c, st.result.getLast? = some c → c.type ≠ t))

theorem groupStep_inv {processed : List DiffLine} {st : GroupState}
    (line : DiffLine) (h : GroupInv processed st) :
    GroupInv (processed ++ [line]) (groupStep st line) := by
  obtain ⟨hflat, hid, hids, hmem, hchain, hcur⟩ := h
  rcases st with ⟨result, currentLines, currentType, chunkId⟩
  simp only [] at hflat hid hids hmem hchain
  rcases currentType with _ | t
  · -- currentType null: first line; category check cannot fire
    obtain ⟨hcl, hres⟩ := hcur
    simp only [] at hcl hres
    have hstep : groupStep ⟨result, currentLines, none, chunkId⟩ line =
        ⟨result, currentLines ++ [line], some (lineCategory line), chunkId⟩ := by
      simp [groupStep]
    rw [hstep]
    refine ⟨by rw [← List.append_assoc, hflat], hid, hids, hmem, hchain, ?_⟩
    simp only [GroupInv, hcl, hres]
    exact ⟨by simp, by simp, by simp⟩
  · obtain ⟨hcl, hcat, hlast⟩ := hcur
    simp only [] at hcl hcat hlast
    by_cases hne : lineCategory line ≠ t
    · -- category change: push the pending chunk
      have hstep : groupStep ⟨result, currentLines, some t, chunkId⟩ line =
          ⟨result ++ [{ id := chunkId, type := t, lines := currentLines }],
           [line], some (lineCategory line), chunkId + 1⟩ := by
        simp only [groupStep, Option.getD_some]
        rw [if_pos hne]
      rw [hstep]
      refine ⟨?_, ?_, ?_, ?_, ?_, ?_⟩
      · rw [List.flatMap_append, ← hflat]
        simp
      · simp [hid]
      · simp only [List.map_append, List.length_append, List.map_cons, List.map_nil]
        rw [hids, hid]
        simp [List.range_succ]
      · intro c hc
        rcases List.mem_append.mp hc with hc | hc
        · exact hmem c hc
        · simp only [List.mem_singleton] at hc
          subst hc
          exact ⟨hcl, hcat⟩
      · rw [List.chain'_append]
        refine ⟨hchain, by simp, ?_⟩
        intro x hx y hy
        simp only [List.head?_cons, Option.mem_def, Option.some.injEq] at hy
        subst hy
        exact hlast x (by simpa using hx)
      · refine ⟨by simp, by simp, ?_⟩
        intro c hc
        simp only [List.getLast?_append, List.getLast?_singleton, Option.or_some,
          Option.some.injEq] at hc
        rw [← hc]
        exact fun hcc => hne hcc.symm
    · -- same category: extend the current run
      push_neg at hne
      have hstep : groupStep ⟨result, currentLines, some t, chunkId⟩ line =
          ⟨result, currentLines ++ [line], some t, chunkId⟩ := by
        simp only [groupStep, Option.getD_some]
        rw [if_neg (by simpa using hne)]
      rw [hstep]
      refine ⟨by rw [← List.append_assoc, hflat], hid, hids, hmem, hchain, ?_⟩
      refine ⟨by simp, ?_, hlast⟩
      intro l hl
      rcases List.mem_append.mp hl with hl | hl
      · exact hcat l hl
      · simp only [List.mem_singleton] at hl
        subst hl
        exact hne

theorem groupInv_foldl (diff : List DiffLine) :
    ∀ processed st, GroupInv processed st →
      GroupInv (processed ++ diff) (diff.foldl groupStep st) := by
  induction diff with
  | nil => intro processed st h; simpa using h
  | cons line rest ih =>
    intro processed st h
    have h2 := ih (processed ++ [line]) (groupStep st line) (groupStep_inv line h)
    simpa using h2

theorem groupFinish_spec (processed : List DiffLine) (st : GroupState)
    (h : GroupInv processed st) :
    (groupFinish st).flatMap (fun c => c.lines) = processed ∧
    (groupFinish st).map (fun c => c.id) = List.range (groupFinish st).length ∧
    (∀ c ∈ groupFinish st,
      c.lines ≠ [] ∧ ∀ l ∈ c.lines, lineCategory l = c.type) ∧
    List.Chain' (fun a b => a.type ≠ b.type) (groupFinish st) := by
  obtain ⟨hflat, hid, hids, hmem, hchain, hcur⟩ := h
  rcases st with ⟨result, currentLines, currentType, chunkId⟩
  simp only [] at hflat hid hids hmem hchain
  rcases currentType with _ | t
  · obtain ⟨hcl, _⟩ := hcur
    simp only [] at hcl
    simp only [groupFinish]
    rw [hcl] at hflat
    simp only [List.append_nil] at hflat
    exact ⟨hflat, hids, hmem, hchain⟩
  · obtain ⟨hcl, hcat, hlast⟩ := hcur
    simp only [] at hcl hcat hlast
    simp only [groupFinish]
    rw [if_pos (by simpa [List.length_pos] using hcl)]
    refine ⟨?_, ?_, ?_, ?_⟩
    · rw [List.flatMap_append, ← hflat]
      simp
    · simp only [List.map_append, List.length_append, List.map_cons, List.map_nil]
      rw [hids, hid]
      simp [List.range_succ]
    · intro c hc
      rcases List.mem_append.mp hc with hc | hc
      · exact hmem c hc
      · simp only [List.mem_singleton] at hc
        subst hc
        exact ⟨hcl, hcat⟩
    · rw [List.chain'_append]
      refine ⟨hchain, by simp, ?_⟩
      intro x hx y hy
      simp only [List.head?_cons, Option.mem_def, Option.some.injEq] at hy
      subst hy
      exact hlast x (by simpa using hx)

theorem groupIntoChunks_spec (diff : List DiffLine) :
    (groupIntoChunks diff).flatMap (fun c => c.lines) = diff ∧
    (groupIntoChunks diff).map (fun c => c.id) =
      List.range (groupIntoChunks diff).length ∧
    (∀ c ∈ groupIntoChunks diff,
      c.lines ≠ [] ∧ ∀ l ∈ c.lines, lineCategory l = c.type) ∧
    List.Chain' (fun a b => a.type ≠ b.type) (groupIntoChunks diff) := by
  have h0 : GroupInv ([] : List DiffLine)
      { result := [], currentLines := [], currentType := none, chunkId := 0 } := by
    exact ⟨rfl, rfl, rfl, by simp, by simp, by constructor <;> rfl⟩
  have h := groupInv_foldl diff []
    { result := [], currentLines := [], currentType := none, chunkId := 0 } h0
  simp only [List.nil_append] at h
  exact groupFinish_spec diff _ h

/-- C2: grouping a diff list D into chunks is a partition: concatenating
the chunks' line lists in id order reproduces D exactly, no chunk has an
empty line list, no two adjacent chunks share the same coarse category,
chunk ids are assigned sequentially from 0 in order, and the empty diff
yields the empty chunk list. -/
theorem groupIntoChunks_partition (D : List DiffLine) :
    (groupIntoChunks D).flatMap (fun c => c.lines) = D ∧
    (∀ c ∈ groupIntoChunks D, c.lines ≠ []) ∧
    List.Chain' (fun a b => a.type ≠ b.type) (groupIntoChunks D) ∧
    (groupIntoChunks D).map (fun c => c.id) =
      List.range (groupIntoChunks D).length ∧
    groupIntoChunks ([] : List DiffLine) = [] := by
  obtain ⟨h1, h2, h3, h4⟩ := groupIntoChunks_spec D
  exact ⟨h1, fun c hc => (h3 c hc).1, h4, h2, rfl⟩

/-- The decision passed to `applyChunkAction`: `'keep' | 'reject'`. -/
inductive ChunkAction where
  | keep
  | reject
deriving DecidableEq, Repr

/-- The repeated pattern `for (const line of ls) build += line.content + "\n"`
of `applyChunkAction`. -/
def appendLines (acc : String) (ls : List DiffLine) : String :=
  ls.foldl (fun a l => a ++ l.content ++ "\n") acc

/-- One chunk of the `for (const chunk of chunks)` loop of `applyChunkAction`,
advancing the pair `(buildContent, buildSuggestion)`. -/
def applyStep (action : ChunkAction) (chunkIndex : Nat) (acc : String × String)
    (chunk : DiffChunk) : String × String :=
  if chunk.type = ChunkType.unchanged then
    (appendLines acc.1 chunk.lines, appendLines acc.2 chunk.lines)
  else if chunk.id = chunkIndex then
    if action = ChunkAction.keep then
      (appendLines acc.1 (chunk.lines.filter fun l => l.type = DiffType.added),
       appendLines acc.2 (chunk.lines.filter fun l => l.type = DiffType.added))
    else
      (appendLines acc.1 (chunk.lines.filter fun l => l.type = DiffType.removed),
       appendLines acc.2 (chunk.lines.filter fun l => l.type = DiffType.removed))
  else
    (appendLines acc.1 (chunk.lines.filter fun l => l.type = DiffType.removed),
     appendLines acc.2 (chunk.lines.filter fun l => l.type = DiffType.added))

/-- JavaScript `s.slice(0, -1)`: drop the last character (identity on `""`). -/
def sliceDropLast (s : String) : String := String.mk s.data.dropLast

/-- `applyChunkAction(action, chunkIndex, chunks)` of `LatexEditor`, modelled
as returning the pair `(buildContent, buildSuggestion)` after the trailing
newline trim; the source passes `buildContent` to `onChange` on keep and
`buildSuggestion` to `onDiffChange` on reject. -/
def applyChunkAction (action : ChunkAction) (chunkIndex : Nat)
    (chunks : List DiffChunk) : String × String :=
  let b := chunks.foldl (applyStep action chunkIndex) ("", "")
  (sliceDropLast b.1, sliceDropLast b.2)

/-- Concatenation of lines, each followed by one newline (the raw
accumulator text before the final trim). -/
def nlcat : List String → String
  | [] => ""
  | s :: rest => s ++ "\n" ++ nlcat rest

theorem appendLines_eq (ls : List DiffLine) :
    ∀ acc, appendLines acc ls = acc ++ nlcat (ls.map fun l => l.content) := by
  induction ls with
  | nil =>
    intro acc
    apply string_eq_of_data_eq
    simp [appendLines, nlcat, String.data_append]
  | cons l ls ih =>
    intro acc
    show appendLines (acc ++ l.content ++ "\n") ls = _
    rw [ih]
    apply string_eq_of_data_eq
    simp [nlcat, String.data_append]

theorem nlcat_append (l1 l2 : List String) :
    nlcat (l1 ++ l2) = nlcat l1 ++ nlcat l2 := by
  induction l1 with
  | nil =>
    apply string_eq_of_data_eq
    simp [nlcat, String.data_append]
  | cons s rest ih =>
    apply string_eq_of_data_eq
    simp only [List.cons_append, nlcat, String.data_append]
    have := congrArg String.data ih
    simp only [String.data_append] at this
    simp [this]

/-- The per-chunk text appended to `buildContent` by `applyChunkAction`. -/
def currentSel (action : ChunkAction) (chunkIndex : Nat) (c : DiffChunk) :
    List String :=
  if c.type = ChunkType.unchanged then c.lines.map fun l => l.content
  else if c.id = chunkIndex then
    if action = ChunkAction.keep then
      (c.lines.filter fun l => l.type = DiffType.added).map fun l => l.content
    else
      (c.lines.filter fun l => l.type = DiffType.removed).map fun l => l.content
  else
    (c.lines.filter fun l => l.type = DiffType.removed).map fun l => l.content

/-- The per-chunk text appended to `buildSuggestion` by `applyChunkAction`. -/
def suggestedSel (action : ChunkAction) (chunkIndex : Nat) (c : DiffChunk) :
    List String :=
  if c.type = ChunkType.unchanged then c.lines.map fun l => l.content
  else if c.id = chunkIndex then
    if action = ChunkAction.keep then
      (c.lines.filter fun l => l.type = DiffType.added).map fun l => l.content
    else
      (c.lines.filter fun l => l.type = DiffType.removed).map fun l => l.content
  else
    (c.lines.filter fun l => l.type = DiffType.added).map fun l => l.content

theorem applyStep_eq (action : ChunkAction) (cid : Nat) (acc : String × String)
    (c : DiffChunk) :
    applyStep action cid acc c =
      (acc.1 ++ nlcat (currentSel action cid c),
       acc.2 ++ nlcat (suggestedSel action cid c)) := by
  by_cases hu : c.type = ChunkType.unchanged
  · simp only [applyStep, currentSel, suggestedSel, if_pos hu, appendLines_eq]
  · by_cases hid : c.id = cid
    · by_cases ha : action = ChunkAction.keep
      · simp only [applyStep, currentSel, suggestedSel, if_neg hu, if_pos hid,
          if_pos ha, appendLines_eq]
      · simp only [applyStep, currentSel, suggestedSel, if_neg hu, if_pos hid,
          if_neg ha, appendLines_eq]
    · simp only [applyStep, currentSel, suggestedSel, if_neg hu, if_neg hid,
        appendLines_eq]

theorem applyFold_eq (action : ChunkAction) (cid : Nat) (chunks : List DiffChunk) :
    ∀ acc, chunks.foldl (applyStep action cid) acc =
      (acc.1 ++ nlcat (chunks.flatMap (currentSel action cid)),
       acc.2 ++ nlcat (chunks.flatMap (suggestedSel action cid))) := by
  induction chunks with
  | nil =>
    intro acc
    apply Prod.ext <;> apply string_eq_of_data_eq <;>
      simp [nlcat, String.data_append]
  | cons c cs ih =>
    intro acc
    show List.foldl _ (applyStep action cid acc c) cs = _
    rw [ih, applyStep_eq]
    simp only [List.flatMap_cons, nlcat_append]
    apply Prod.ext <;> apply string_eq_of_data_eq <;>
      simp [String.data_append]

theorem empty_append_str (s : String) : "" ++ s = s := by
  apply string_eq_of_data_eq
  rw [String.data_append]
  rfl

theorem applyChunkAction_eq (action : ChunkAction) (cid : Nat)
    (chunks : List DiffChunk) :
    applyChunkAction action cid chunks =
      (sliceDropLast (nlcat (chunks.flatMap (currentSel action cid))),
       sliceDropLast (nlcat (chunks.flatMap (suggestedSel action cid)))) := by
  show (sliceDropLast (chunks.foldl (applyStep action cid) ("", "")).1,
        sliceDropLast (chunks.foldl (applyStep action cid) ("", "")).2) = _
  rw [applyFold_eq]
  simp [empty_append_str]

theorem nlcat_data_ne_nil (x : String) (xs : List String) :
    (nlcat (x :: xs)).data ≠ [] := by
  show (x ++ "\n" ++ nlcat xs).data ≠ []
  rw [String.data_append, String.data_append,
    show ("\n" : String).data = ['\n'] from rfl]
  simp

theorem sliceDropLast_nlcat (ls : List String) :
    sliceDropLast (nlcat ls) = joinLines ls := by
  induction ls with
  | nil => rfl
  | cons s rest ih =>
    cases rest with
    | nil =>
      apply string_eq_of_data_eq
      show ((s ++ "\n" ++ nlcat []).data).dropLast = (joinLines [s]).data
      rw [String.data_append, String.data_append,
        show ("\n" : String).data = ['\n'] from rfl,
        show (nlcat []).data = [] from rfl,
        show (joinLines [s]).data = s.data from rfl]
      simp
    | cons s2 rest2 =>
      apply string_eq_of_data_eq
      have ihd := congrArg String.data ih
      simp only [sliceDropLast, data_mk] at ihd
      show ((s ++ "\n" ++ nlcat (s2 :: rest2)).data).dropLast =
        (s ++ "\n" ++ joinLines (s2 :: rest2)).data
      rw [String.data_append, String.data_append, String.data_append,
        String.data_append, List.append_assoc, List.append_assoc,
        List.dropLast_append_of_ne_nil _ (by
          intro h
          rcases List.append_eq_nil.mp h with ⟨_, h2⟩
          exact nlcat_data_ne_nil s2 rest2 h2),
        List.dropLast_append_of_ne_nil _ (nlcat_data_ne_nil s2 rest2)]
      apply congrArg
      apply congrArg
      exact ihd

theorem lineCategory_eq_unchanged {l : DiffLine}
    (h : lineCategory l = ChunkType.unchanged) : l.type = DiffType.unchanged := by
  by_contra hc
  simp [lineCategory, hc] at h

theorem lineCategory_eq_change {l : DiffLine}
    (h : lineCategory l = ChunkType.change) : l.type ≠ DiffType.unchanged := by
  intro hc
  simp [lineCategory, hc] at h

theorem chunkType_not_unchanged {t : ChunkType} (h : t ≠ ChunkType.unchanged) :
    t = ChunkType.change := by
  rcases t with _ | _
  · exact absurd rfl h
  · rfl

theorem origContents_eq_map_content {ls : List DiffLine}
    (h : ∀ l ∈ ls, l.type = DiffType.unchanged) :
    origContents ls = ls.map fun l => l.content := by
  induction ls with
  | nil => rfl
  | cons l ls ih =>
    rw [origContents_cons_keep _ (Or.inr (h l (List.mem_cons_self l ls))),
      List.map_cons, ih fun x hx => h x (List.mem_cons_of_mem _ hx)]

theorem modContents_eq_map_content {ls : List DiffLine}
    (h : ∀ l ∈ ls, l.type = DiffType.unchanged) :
    modContents ls = ls.map fun l => l.content := by
  induction ls with
  | nil => rfl
  | cons l ls ih =>
    rw [modContents_cons_keep _ (Or.inr (h l (List.mem_cons_self l ls))),
      List.map_cons, ih fun x hx => h x (List.mem_cons_of_mem _ hx)]

theorem origContents_eq_filter_removed {ls : List DiffLine}
    (h : ∀ l ∈ ls, l.type ≠ DiffType.unchanged) :
    (ls.filter fun l => l.type = DiffType.removed).map (fun l => l.content) =
      origContents ls := by
  induction ls with
  | nil => rfl
  | cons l ls ih =>
    have hl := h l (List.mem_cons_self l ls)
    have ih2 := ih fun x hx => h x (List.mem_cons_of_mem _ hx)
    by_cases hr : l.type = DiffType.removed
    · rw [List.filter_cons_of_pos (by simp [hr]), List.map_cons,
        origContents_cons_keep _ (Or.inl hr), ih2]
    · have hcase : l.type = DiffType.added ∨ l.type = DiffType.context := by
        rcases ht : l.type with _ | _ | _ | _
        · exact Or.inl rfl
        · exact absurd ht hr
        · exact Or.inr rfl
        · exact absurd ht hl
      rw [List.filter_cons_of_neg (by simp [hr]),
        origContents_cons_skip _ hcase, ih2]

theorem modContents_eq_filter_added {ls : List DiffLine}
    (h : ∀ l ∈ ls, l.type ≠ DiffType.unchanged) :
    (ls.filter fun l => l.type = DiffType.added).map (fun l => l.content) =
      modContents ls := by
  induction ls with
  | nil => rfl
  | cons l ls ih =>
    have hl := h l (List.mem_cons_self l ls)
    have ih2 := ih fun x hx => h x (List.mem_cons_of_mem _ hx)
    by_cases ha : l.type = DiffType.added
    · rw [List.filter_cons_of_pos (by simp [ha]), List.map_cons,
        modContents_cons_keep _ (Or.inl ha), ih2]
    · have hcase : l.type = DiffType.removed ∨ l.type = DiffType.context := by
        rcases ht : l.type with _ | _ | _ | _
        · exact absurd ht ha
        · exact Or.inl rfl
        · exact Or.inr rfl
        · exact absurd ht hl
      rw [List.filter_cons_of_neg (by simp [ha]),
        modContents_cons_skip _ hcase, ih2]

theorem currentSel_eq_origContents {action : ChunkAction} {cid : Nat}
    {c : DiffChunk} (hpure : ∀ l ∈ c.lines, lineCategory l = c.type)
    (hmiss : c.type = ChunkType.change → c.id = cid → action = ChunkAction.reject) :
    currentSel action cid c = origContents c.lines := by
  by_cases hu : c.type = ChunkType.unchanged
  · rw [currentSel, if_pos hu,
      origContents_eq_map_content fun l hl =>
        lineCategory_eq_unchanged ((hpure l hl).trans hu)]
  · have hch := chunkType_not_unchanged hu
    have hnu : ∀ l ∈ c.lines, l.type ≠ DiffType.unchanged := fun l hl =>
      lineCategory_eq_change ((hpure l hl).trans hch)
    by_cases hid : c.id = cid
    · have ha := hmiss hch hid
      rw [currentSel, if_neg hu, if_pos hid, if_neg (by rw [ha]; decide)]
      exact origContents_eq_filter_removed hnu
    · rw [currentSel, if_neg hu, if_neg hid]
      exact origContents_eq_filter_removed hnu

theorem suggestedSel_eq_modContents {action : ChunkAction} {cid : Nat}
    {c : DiffChunk} (hpure : ∀ l ∈ c.lines, lineCategory l = c.type)
    (hmiss : c.type = ChunkType.change → c.id = cid → action = ChunkAction.keep) :
    suggestedSel action cid c = modContents c.lines := by
  by_cases hu : c.type = ChunkType.unchanged
  · rw [suggestedSel, if_pos hu,
      modContents_eq_map_content fun l hl =>
        lineCategory_eq_unchanged ((hpure l hl).trans hu)]
  · have hch := chunkType_not_unchanged hu
    have hnu : ∀ l ∈ c.lines, l.type ≠ DiffType.unchanged := fun l hl =>
      lineCategory_eq_change ((hpure l hl).trans hch)
    by_cases hid : c.id = cid
    · have ha := hmiss hch hid
      rw [suggestedSel, if_neg hu, if_pos hid, if_pos ha]
      exact modContents_eq_filter_added hnu
    · rw [suggestedSel, if_neg hu, if_neg hid]
      exact modContents_eq_filter_added hnu

theorem flatMap_congr_mem {α β : Type} {l : List α} {f g : α → List β}
    (h : ∀ a ∈ l, f a = g a) : l.flatMap f = l.flatMap g := by
  induction l with
  | nil => rfl
  | cons x xs ih =>
    rw [List.flatMap_cons, List.flatMap_cons, h x (List.mem_cons_self x xs),
      ih fun a ha => h a (List.mem_cons_of_mem _ ha)]

theorem flatMap_origContents {cs : List DiffChunk} {sel : DiffChunk → List String}
    (h : ∀ c ∈ cs, sel c = origContents c.lines) :
    cs.flatMap sel = origContents (cs.flatMap fun c => c.lines) := by
  induction cs with
  | nil => rfl
  | cons c cs ih =>
    rw [List.flatMap_cons, List.flatMap_cons, origContents_append,
      h c (List.mem_cons_self c cs), ih fun x hx => h x (List.mem_cons_of_mem _ hx)]

theorem flatMap_modContents {cs : List DiffChunk} {sel : DiffChunk → List String}
    (h : ∀ c ∈ cs, sel c = modContents c.lines) :
    cs.flatMap sel = modContents (cs.flatMap fun c => c.lines) := by
  induction cs with
  | nil => rfl
  | cons c cs ih =>
    rw [List.flatMap_cons, List.flatMap_cons, modContents_append,
      h c (List.mem_cons_self c cs), ih fun x hx => h x (List.mem_cons_of_mem _ hx)]

theorem chunk_id_injective {cs : List DiffChunk}
    (hids : cs.map (fun c => c.id) = List.range cs.length) :
    ∀ c1 ∈ cs, ∀ c2 ∈ cs, c1.id = c2.id → c1 = c2 := by
  have hid : ∀ k, (hk : k < cs.length) → (cs.get ⟨k, hk⟩).id = k := by
    intro k hk
    have h1 : (cs.map (fun c => c.id))[k]? = (List.range cs.length)[k]? := by
      rw [hids]
    rw [List.getElem?_map, List.getElem?_eq_getElem hk, List.getElem?_range hk] at h1
    simpa using h1
  intro c1 h1 c2 h2 heq
  rcases List.mem_iff_get.mp h1 with ⟨⟨k1, hk1⟩, rfl⟩
  rcases List.mem_iff_get.mp h2 with ⟨⟨k2, hk2⟩, rfl⟩
  have e1 := hid k1 hk1
  have e2 := hid k2 hk2
  have : k1 = k2 := by rw [← e1, ← e2, heq]
  subst this
  rfl

theorem origContents_computeDiff (A B : String) :
    origContents (computeDiff A B) = splitLines A := by
  rw [show computeDiff A B = diffLoop (splitLines A) (splitLines B) 0 0 1 1 from rfl,
    origContents_diffLoop (splitLines A) (splitLines B)
      ((splitLines A).length + (splitLines B).length) 0 0 1 1 (by omega),
    List.drop_zero]

theorem modContents_computeDiff (A B : String) :
    modContents (computeDiff A B) = splitLines B := by
  rw [show computeDiff A B = diffLoop (splitLines A) (splitLines B) 0 0 1 1 from rfl,
    modContents_diffLoop (splitLines A) (splitLines B)
      ((splitLines A).length + (splitLines B).length) 0 0 1 1 (by omega),
    List.drop_zero]

/-- C3: applying a decision with a chunk id that does not exist in the chunk
list, or that refers to an Unchanged chunk, is a no-op: the reconstructed
current buffer is A and the reconstructed suggested buffer is B, for chunks
derived from `computeDiff A B` (and the function is total, so it never
throws). -/
theorem applyChunkAction_noop (A B : String) (action : ChunkAction) (cid : Nat)
    (h : (∀ c ∈ groupIntoChunks (computeDiff A B), c.id ≠ cid) ∨
      (∃ c ∈ groupIntoChunks (computeDiff A B),
        c.id = cid ∧ c.type = ChunkType.unchanged)) :
    applyChunkAction action cid (groupIntoChunks (computeDiff A B)) = (A, B) := by
  obtain ⟨hflat, hids, hmem, hchain⟩ := groupIntoChunks_spec (computeDiff A B)
  have hmiss : ∀ c ∈ groupIntoChunks (computeDiff A B),
      c.type = ChunkType.change → c.id ≠ cid := by
    intro c hc hch hcid
    rcases h with h | ⟨c0, hc0, hcid0, hu0⟩
    · exact h c hc hcid
    · have hcc : c = c0 :=
        chunk_id_injective hids c hc c0 hc0 (by rw [hcid, hcid0])
      rw [hcc, hu0] at hch
      cases hch
  rw [applyChunkAction_eq]
  have hcur : (groupIntoChunks (computeDiff A B)).flatMap (currentSel action cid) =
      origContents (computeDiff A B) := by
    rw [flatMap_origContents fun c hc =>
        currentSel_eq_origContents (hmem c hc).2
          (fun hch hcid => absurd hcid (hmiss c hc hch)),
      hflat]
  have hsug : (groupIntoChunks (computeDiff A B)).flatMap (suggestedSel action cid) =
      modContents (computeDiff A B) := by
    rw [flatMap_modContents fun c hc =>
        suggestedSel_eq_modContents (hmem c hc).2
          (fun hch hcid => absurd hcid (hmiss c hc hch)),
      hflat]
  rw [hcur, hsug, sliceDropLast_nlcat, sliceDropLast_nlcat,
    origContents_computeDiff, modContents_computeDiff,
    joinLines_splitLines, joinLines_splitLines]

/-- C4: after rejecting a Changed chunk, the reconstructed current buffer
equals A unchanged, and the reconstructed suggested buffer is the
concatenation in which the rejected chunk's region holds exactly the
Removed lines' text while every other region is untouched (Unchanged
regions keep their lines, other Changed regions keep their Added lines). -/
theorem applyChunkAction_reject_restores (A B : String) (cid : Nat)
    (h : ∃ c ∈ groupIntoChunks (computeDiff A B),
      c.id = cid ∧ c.type = ChunkType.change) :
    (applyChunkAction ChunkAction.reject cid
      (groupIntoChunks (computeDiff A B))).1 = A ∧
    (applyChunkAction ChunkAction.reject cid
      (groupIntoChunks (computeDiff A B))).2 =
      joinLines ((groupIntoChunks (computeDiff A B)).flatMap fun c =>
        if c.id = cid then
          (c.lines.filter fun l => l.type = DiffType.removed).map fun l => l.content
        else if c.type = ChunkType.unchanged then
          c.lines.map fun l => l.content
        else
          (c.lines.filter fun l => l.type = DiffType.added).map fun l => l.content) := by
  obtain ⟨hflat, hids, hmem, hchain⟩ := groupIntoChunks_spec (computeDiff A B)
  obtain ⟨c0, hc0, hcid0, hch0⟩ := h
  constructor
  · rw [applyChunkAction_eq]
    show sliceDropLast (nlcat ((groupIntoChunks (computeDiff A B)).flatMap
      (currentSel ChunkAction.reject cid))) = A
    rw [flatMap_origContents fun c hc =>
        currentSel_eq_origContents (hmem c hc).2 (fun _ _ => rfl),
      hflat, sliceDropLast_nlcat, origContents_computeDiff, joinLines_splitLines]
  · rw [applyChunkAction_eq]
    show sliceDropLast (nlcat ((groupIntoChunks (computeDiff A B)).flatMap
      (suggestedSel ChunkAction.reject cid))) = _
    rw [sliceDropLast_nlcat]
    apply congrArg joinLines
    apply flatMap_congr_mem
    intro c hc
    by_cases hid : c.id = cid
    · have hcc : c = c0 :=
        chunk_id_injective hids c hc c0 hc0 (by rw [hid, hcid0])
      have hch : c.type = ChunkType.change := by rw [hcc]; exact hch0
      have hu : ¬c.type = ChunkType.unchanged := by rw [hch]; decide
      rw [suggestedSel, if_neg hu, if_pos hid, if_neg (by decide), if_pos hid]
    · rw [suggestedSel, if_neg hid]
      by_cases hu : c.type = ChunkType.unchanged
      · rw [if_pos hu, if_neg hid]
      · rw [if_neg hu, if_neg hid]

theorem computeDiff_self_eval (A : String) :
    computeDiff A A =
      (List.range (splitLines A).length).map fun k =>
        { type := .unchanged, content := (splitLines A).getD k "",
          oldLineNum := some (k + 1), newLineNum := some (k + 1) } := by
  rw [show computeDiff A A = diffLoop (splitLines A) (splitLines A) 0 0 1 1 from rfl,
    diffLoop_self (splitLines A) (splitLines A).length 0 1 (by omega)]
  simp only [Nat.sub_zero]
  apply List.map_congr_left
  intro k hk
  have e1 : 0 + k = k := by omega
  have e2 : 1 + k = k + 1 := by omega
  simp [e1, e2]

theorem getDiffSummary_self (s : String) :
    getDiffSummary (computeDiff s s) = { added := 0, removed := 0 } := by
  rw [computeDiff_self_eval]
  simp [getDiffSummary, List.filter_map]

/-- C5: if the chunk list of `computeDiff A B` contains exactly one Changed
chunk, then applying Keep or Reject to it yields two buffers whose
recomputed diff summarizes to zero Added and zero Removed lines (the
condition under which the comparison session is closed and the suggested
buffer discarded). -/
theorem applyChunkAction_resolves_last (A B : String) (c : DiffChunk)
    (hmem : c ∈ groupIntoChunks (computeDiff A B))
    (hch : c.type = ChunkType.change)
    (huniq : ∀ c2 ∈ groupIntoChunks (computeDiff A B),
      c2.type = ChunkType.change → c2 = c)
    (action : ChunkAction) :
    getDiffSummary (computeDiff
      (applyChunkAction action c.id (groupIntoChunks (computeDiff A B))).1
      (applyChunkAction action c.id (groupIntoChunks (computeDiff A B))).2) =
      { added := 0, removed := 0 } := by
  have heq : (applyChunkAction action c.id (groupIntoChunks (computeDiff A B))).1 =
      (applyChunkAction action c.id (groupIntoChunks (computeDiff A B))).2 := by
    rw [applyChunkAction_eq]
    show sliceDropLast (nlcat ((groupIntoChunks (computeDiff A B)).flatMap
        (currentSel action c.id))) =
      sliceDropLast (nlcat ((groupIntoChunks (computeDiff A B)).flatMap
        (suggestedSel action c.id)))
    apply congrArg sliceDropLast
    apply congrArg nlcat
    apply flatMap_congr_mem
    intro c2 hc2
    by_cases hu : c2.type = ChunkType.unchanged
    · rw [currentSel, suggestedSel, if_pos hu, if_pos hu]
    · have hc2c : c2 = c := huniq c2 hc2 (chunkType_not_unchanged hu)
      have hid : c2.id = c.id := by rw [hc2c]
      rw [currentSel, suggestedSel, if_neg hu, if_neg hu, if_pos hid, if_pos hid]
  rw [heq]
  exact getDiffSummary_self _

theorem computeDiff_ab_ac_eval :
    computeDiff "a\nb" "a\nc" =
      [{ type := .unchanged, content := "a", oldLineNum := some 1, newLineNum := some 1 },
       { type := .removed, content := "b", oldLineNum := some 2 },
       { type := .added, content := "c", newLineNum := some 2 }] := by
  rw [show computeDiff "a\nb" "a\nc" = diffLoop ["a", "b"] ["a", "c"] 0 0 1 1 from rfl,
    diffLoop_unchanged 1 1 (by decide) (by decide) (by decide),
    diffLoop_replace 2 2 (by decide) (by decide) (by decide) (by decide) (by decide),
    diffLoop_stop 3 3 (by decide) (by decide)]
  rfl

theorem applyChunkAction_noop_witness :
    ((∀ c ∈ groupIntoChunks (computeDiff "a\nb" "a\nc"), c.id ≠ 5) ∨
      (∃ c ∈ groupIntoChunks (computeDiff "a\nb" "a\nc"),
        c.id = 5 ∧ c.type = ChunkType.unchanged)) ∧
    applyChunkAction ChunkAction.keep 5
      (groupIntoChunks (computeDiff "a\nb" "a\nc")) = ("a\nb", "a\nc") := by
  have h : (∀ c ∈ groupIntoChunks (computeDiff "a\nb" "a\nc"), c.id ≠ 5) ∨
      (∃ c ∈ groupIntoChunks (computeDiff "a\nb" "a\nc"),
        c.id = 5 ∧ c.type = ChunkType.unchanged) :=
    Or.inl (by rw [computeDiff_ab_ac_eval]; decide)
  exact ⟨h, applyChunkAction_noop "a\nb" "a\nc" ChunkAction.keep 5 h⟩

theorem applyChunkAction_reject_restores_witness :
    (∃ c ∈ groupIntoChunks (computeDiff "a\nb" "a\nc"),
      c.id = 1 ∧ c.type = ChunkType.change) ∧
    (applyChunkAction ChunkAction.reject 1
      (groupIntoChunks (computeDiff "a\nb" "a\nc"))).1 = "a\nb" ∧
    (applyChunkAction ChunkAction.reject 1
      (groupIntoChunks (computeDiff "a\nb" "a\nc"))).2 =
      joinLines ((groupIntoChunks (computeDiff "a\nb" "a\nc")).flatMap fun c =>
        if c.id = 1 then
          (c.lines.filter fun l => l.type = DiffType.removed).map fun l => l.content
        else if c.type = ChunkType.unchanged then
          c.lines.map fun l => l.content
        else
          (c.lines.filter fun l => l.type = DiffType.added).map fun l => l.content) := by
  have h : ∃ c ∈ groupIntoChunks (computeDiff "a\nb" "a\nc"),
      c.id = 1 ∧ c.type = ChunkType.change := by
    rw [computeDiff_ab_ac_eval]
    decide
  exact ⟨h, (applyChunkAction_reject_restores "a\nb" "a\nc" 1 h).1,
    (applyChunkAction_reject_restores "a\nb" "a\nc" 1 h).2⟩

theorem applyChunkAction_resolves_last_witness :
    ({ id := 1, type := ChunkType.change,
       lines := [{ type := .removed, content := "b", oldLineNum := some 2 },
                 { type := .added, content := "c", newLineNum := some 2 }] } : DiffChunk) ∈
      groupIntoChunks (computeDiff "a\nb" "a\nc") ∧
    ({ id := 1, type := ChunkType.change,
       lines := [{ type := .removed, content := "b", oldLineNum := some 2 },
                 { type := .added, content := "c", newLineNum := some 2 }] } :
        DiffChunk).type = ChunkType.change ∧
    (∀ c2 ∈ groupIntoChunks (computeDiff "a\nb" "a\nc"),
      c2.type = ChunkType.change →
        c2 = { id := 1, type := ChunkType.change,
               lines := [{ type := .removed, content := "b", oldLineNum := some 2 },
                         { type := .added, content := "c", newLineNum := some 2 }] }) ∧
    getDiffSummary (computeDiff
      (applyChunkAction ChunkAction.keep 1
        (groupIntoChunks (computeDiff "a\nb" "a\nc"))).1
      (applyChunkAction ChunkAction.keep 1
        (groupIntoChunks (computeDiff "a\nb" "a\nc"))).2) =
      { added := 0, removed := 0 } := by
  have hmem : ({ id := 1, type := ChunkType.change,
                 lines := [{ type := .removed, content := "b", oldLineNum := some 2 },
                           { type := .added, content := "c", newLineNum := some 2 }] } :
      DiffChunk) ∈ groupIntoChunks (computeDiff "a\nb" "a\nc") := by
    rw [computeDiff_ab_ac_eval]
    decide
  have huniq : ∀ c2 ∈ groupIntoChunks (computeDiff "a\nb" "a\nc"),
      c2.type = ChunkType.change →
        c2 = { id := 1, type := ChunkType.change,
               lines := [{ type := .removed, content := "b", oldLineNum := some 2 },
                         { type := .added, content := "c", newLineNum := some 2 }] } := by
    rw [computeDiff_ab_ac_eval]
    decide
  exact ⟨hmem, rfl, huniq,
    applyChunkAction_resolves_last "a\nb" "a\nc" _ hmem rfl huniq ChunkAction.keep⟩

/-- The source's local `foundInMod`:
`modifiedLines.slice(j, j + 10).indexOf(originalLines[i])`. -/
def foundInMod (orig mod : List String) (i j : Nat) : Int :=
  jsIndexOf ((mod.drop j).take 10) (orig.getD i "")

/-- The source's local `foundInOrig`:
`originalLines.slice(i, i + 10).indexOf(modifiedLines[j])`. -/
def foundInOrig (orig mod : List String) (i j : Nat) : Int :=
  jsIndexOf ((orig.drop i).take 10) (mod.getD j "")

theorem addedRun_map_content (mod : List String) (j k b : Nat)
    (h : j + k ≤ mod.length) :
    (addedRun mod j k b).map (fun l => l.content) = (mod.drop j).take k := by
  rw [← range_map_getD mod j k "" h, addedRun, List.map_map]
  rfl

theorem removedRun_map_content (orig : List String) (i k a : Nat)
    (h : i + k ≤ orig.length) :
    (removedRun orig i k a).map (fun l => l.content) = (orig.drop i).take k := by
  rw [← range_map_getD orig i k "" h, removedRun, List.map_map]
  rfl

theorem addedRun_map_type (mod : List String) (j k b : Nat) :
    (addedRun mod j k b).map (fun l => l.type) =
      List.replicate k DiffType.added := by
  induction k with
  | zero => rfl
  | succ k ih =>
    rw [addedRun, List.range_succ, List.map_append, List.map_append]
    rw [addedRun] at ih
    rw [ih, List.replicate_succ']
    rfl

theorem removedRun_map_type (orig : List String) (i k a : Nat) :
    (removedRun orig i k a).map (fun l => l.type) =
      List.replicate k DiffType.removed := by
  induction k with
  | zero => rfl
  | succ k ih =>
    rw [removedRun, List.range_succ, List.map_append, List.map_append]
    rw [removedRun] at ih
    rw [ih, List.replicate_succ']
    rfl

/-- C7: on a mismatch with both cursors in range, the loop searches a
10-line window in each buffer; if both searches fail it emits a one-line
replacement and advances both cursors by 1; if the search in `modified`
succeeds and the search in `original` fails or `foundInMod ≤ foundInOrig`,
it emits the lines `modified[j .. j+foundInMod)` as Added (advancing only
`j` by `foundInMod`); otherwise it emits `original[i .. i+foundInOrig)` as
Removed (advancing only `i` by `foundInOrig`). -/
theorem computeDiff_mismatch_branch (orig mod : List String) (i j oldN newN : Nat)
    (hi : i < orig.length) (hj : j < mod.length)
    (hne : orig.getD i "" ≠ mod.getD j "") :
    (foundInMod orig mod i j = -1 ∧ foundInOrig orig mod i j = -1 →
      diffLoop orig mod i j oldN newN =
        { type := .removed, content := orig.getD i "", oldLineNum := some oldN } ::
        { type := .added, content := mod.getD j "", newLineNum := some newN } ::
        diffLoop orig mod (i + 1) (j + 1) (oldN + 1) (newN + 1)) ∧
    (0 ≤ foundInMod orig mod i j ∧
        (foundInOrig orig mod i j = -1 ∨
          foundInMod orig mod i j ≤ foundInOrig orig mod i j) →
      diffLoop orig mod i j oldN newN =
        addedRun mod j (foundInMod orig mod i j).toNat newN ++
          diffLoop orig mod i (j + (foundInMod orig mod i j).toNat) oldN
            (newN + (foundInMod orig mod i j).toNat) ∧
      (addedRun mod j (foundInMod orig mod i j).toNat newN).map (fun l => l.content) =
        (mod.drop j).take (foundInMod orig mod i j).toNat ∧
      (addedRun mod j (foundInMod orig mod i j).toNat newN).map (fun l => l.type) =
        List.replicate (foundInMod orig mod i j).toNat DiffType.added) ∧
    (¬(foundInMod orig mod i j = -1 ∧ foundInOrig orig mod i j = -1) ∧
        ¬(0 ≤ foundInMod orig mod i j ∧
          (foundInOrig orig mod i j = -1 ∨
            foundInMod orig mod i j ≤ foundInOrig orig mod i j)) →
      diffLoop orig mod i j oldN newN =
        removedRun orig i (foundInOrig orig mod i j).toNat oldN ++
          diffLoop orig mod (i + (foundInOrig orig mod i j).toNat) j
            (oldN + (foundInOrig orig mod i j).toNat) newN ∧
      (removedRun orig i (foundInOrig orig mod i j).toNat oldN).map
          (fun l => l.content) =
        (orig.drop i).take (foundInOrig orig mod i j).toNat ∧
      (removedRun orig i (foundInOrig orig mod i j).toNat oldN).map
          (fun l => l.type) =
        List.replicate (foundInOrig orig mod i j).toNat DiffType.removed) := by
  refine ⟨?_, ?_, ?_⟩
  · rintro ⟨hm, ho⟩
    exact diffLoop_replace oldN newN hi hj hne hm ho
  · intro hc
    have hmlt := jsIndexOf_toNat_lt hc.1
    simp only [List.length_take, List.length_drop] at hmlt
    have hfm : (foundInMod orig mod i j).toNat =
      (jsIndexOf ((mod.drop j).take 10) (orig.getD i "")).toNat := rfl
    exact ⟨diffLoop_insert oldN newN hi hj hne hc,
      addedRun_map_content mod j _ newN (by omega),
      addedRun_map_type mod j _ newN⟩
  · rintro ⟨h5, h6⟩
    have ho : 0 ≤ foundInOrig orig mod i j := by
      rcases jsIndexOf_eq_neg_one_or_nonneg ((orig.drop i).take 10) (mod.getD j "")
        with hf | hf
      · exfalso
        rcases jsIndexOf_eq_neg_one_or_nonneg ((mod.drop j).take 10) (orig.getD i "")
          with hg | hg
        · exact h5 ⟨hg, hf⟩
        · exact h6 ⟨hg, Or.inl hf⟩
      · exact hf
    have holt := jsIndexOf_toNat_lt ho
    simp only [List.length_take, List.length_drop] at holt
    have hfo : (foundInOrig orig mod i j).toNat =
      (jsIndexOf ((orig.drop i).take 10) (mod.getD j "")).toNat := rfl
    exact ⟨diffLoop_delete oldN newN hi hj hne h5 h6,
      removedRun_map_content orig i _ oldN (by omega),
      removedRun_map_type orig i _ oldN⟩

theorem computeDiff_mismatch_branch_witness :
    0 < (["x"] : List String).length ∧ 0 < (["y"] : List String).length ∧
    (["x"] : List String).getD 0 "" ≠ (["y"] : List String).getD 0 "" ∧
    (foundInMod ["x"] ["y"] 0 0 = -1 ∧ foundInOrig ["x"] ["y"] 0 0 = -1) ∧
    diffLoop ["x"] ["y"] 0 0 1 1 =
      { type := .removed, content := (["x"] : List String).getD 0 "",
        oldLineNum := some 1 } ::
      { type := .added, content := (["y"] : List String).getD 0 "",
        newLineNum := some 1 } ::
      diffLoop ["x"] ["y"] 1 1 2 2 := by
  refine ⟨by decide, by decide, by decide, by decide, ?_⟩
  exact (computeDiff_mismatch_branch ["x"] ["y"] 0 0 1 1 (by decide) (by decide)
    (by decide)).1 (by decide)

/-- C10: computeDiff terminates on every input: whenever the loop guard
holds, one iteration emits a (possibly empty) block and continues at
cursors whose sum `i + j` strictly increased; in the lookahead branches
this is because a found index of 0 would contradict the branch's
precondition `original[i] ≠ modified[j]`, so a successful lookahead index
is always at least 1. -/
theorem computeDiff_terminating (orig mod : List String) (i j oldN newN : Nat)
    (h : i < orig.length ∨ j < mod.length) :
    (∃ emitted i2 j2 oldN2 newN2,
      diffLoop orig mod i j oldN newN =
        emitted ++ diffLoop orig mod i2 j2 oldN2 newN2 ∧ i + j < i2 + j2) ∧
    (j < mod.length → orig.getD i "" ≠ mod.getD j "" →
      0 ≤ foundInMod orig mod i j → 1 ≤ (foundInMod orig mod i j).toNat) ∧
    (i < orig.length → orig.getD i "" ≠ mod.getD j "" →
      0 ≤ foundInOrig orig mod i j → 1 ≤ (foundInOrig orig mod i j).toNat) := by
  refine ⟨?_, ?_, ?_⟩
  · by_cases h2 : i < orig.length
    · by_cases h3 : j < mod.length
      · by_cases h4 : orig.getD i "" = mod.getD j ""
        · refine ⟨[{ type := .unchanged, content := orig.getD i "",
                     oldLineNum := some oldN, newLineNum := some newN }],
            i + 1, j + 1, oldN + 1, newN + 1, ?_, by omega⟩
          rw [diffLoop_unchanged oldN newN h2 h3 h4]
          rfl
        · rcases jsIndexOf_eq_neg_one_or_nonneg ((mod.drop j).take 10)
            (orig.getD i "") with hm | hm
          · rcases jsIndexOf_eq_neg_one_or_nonneg ((orig.drop i).take 10)
              (mod.getD j "") with ho | ho
            · refine ⟨[{ type := .removed, content := orig.getD i "",
                           oldLineNum := some oldN },
                         { type := .added, content := mod.getD j "",
                           newLineNum := some newN }],
                i + 1, j + 1, oldN + 1, newN + 1, ?_, by omega⟩
              rw [diffLoop_replace oldN newN h2 h3 h4 hm ho]
              rfl
            · have hw := window_head orig i h2
              have hk1 := one_le_jsIndexOf_toNat (by rw [hw.2]; exact h4) ho hw.1
              refine ⟨removedRun orig i
                  (jsIndexOf ((orig.drop i).take 10) (mod.getD j "")).toNat oldN,
                i + (jsIndexOf ((orig.drop i).take 10) (mod.getD j "")).toNat, j,
                oldN + (jsIndexOf ((orig.drop i).take 10) (mod.getD j "")).toNat, newN,
                ?_, by omega⟩
              exact diffLoop_delete oldN newN h2 h3 h4
                (by rintro ⟨_, hc⟩; rw [hc] at ho; omega)
                (by rintro ⟨hc, _⟩; rw [hm] at hc; norm_num at hc)
          · by_cases hcmp : jsIndexOf ((orig.drop i).take 10) (mod.getD j "") = -1 ∨
                jsIndexOf ((mod.drop j).take 10) (orig.getD i "") ≤
                  jsIndexOf ((orig.drop i).take 10) (mod.getD j "")
            · have hw := window_head mod j h3
              have hk1 := one_le_jsIndexOf_toNat
                (by rw [hw.2]; exact fun hc => h4 hc.symm) hm hw.1
              refine ⟨addedRun mod j
                  (jsIndexOf ((mod.drop j).take 10) (orig.getD i "")).toNat newN,
                i, j + (jsIndexOf ((mod.drop j).take 10) (orig.getD i "")).toNat,
                oldN, newN + (jsIndexOf ((mod.drop j).take 10) (orig.getD i "")).toNat,
                ?_, by omega⟩
              exact diffLoop_insert oldN newN h2 h3 h4 ⟨hm, hcmp⟩
            · push_neg at hcmp
              have ho : 0 ≤ jsIndexOf ((orig.drop i).take 10) (mod.getD j "") := by
                rcases jsIndexOf_eq_neg_one_or_nonneg ((orig.drop i).take 10)
                  (mod.getD j "") with hcc | hcc
                · exact absurd hcc hcmp.1
                · exact hcc
              have hw := window_head orig i h2
              have hk1 := one_le_jsIndexOf_toNat (by rw [hw.2]; exact h4) ho hw.1
              refine ⟨removedRun orig i
                  (jsIndexOf ((orig.drop i).take 10) (mod.getD j "")).toNat oldN,
                i + (jsIndexOf ((orig.drop i).take 10) (mod.getD j "")).toNat, j,
                oldN + (jsIndexOf ((orig.drop i).take 10) (mod.getD j "")).toNat, newN,
                ?_, by omega⟩
              exact diffLoop_delete oldN newN h2 h3 h4
                (by rintro ⟨hc, _⟩; rw [hc] at hm; norm_num at hm)
                (by rintro ⟨_, hc⟩
                    rcases hc with hc | hc
                    · exact absurd hc hcmp.1
                    · exact absurd hc (by push_neg; exact hcmp.2))
      · refine ⟨[{ type := .removed, content := orig.getD i "",
                   oldLineNum := some oldN }], i + 1, j, oldN + 1, newN, ?_, by omega⟩
        rw [diffLoop_remTail oldN newN h2 (by omega)]
        rfl
    · have h3 : j < mod.length := by omega
      refine ⟨[{ type := .added, content := mod.getD j "",
                 newLineNum := some newN }], i, j + 1, oldN, newN + 1, ?_, by omega⟩
      rw [diffLoop_addTail oldN newN (by omega) h3]
      rfl
  · intro hj hne hm
    have hw := window_head mod j hj
    exact one_le_jsIndexOf_toNat (by rw [hw.2]; exact fun hc => hne hc.symm) hm hw.1
  · intro hi hne ho
    have hw := window_head orig i hi
    exact one_le_jsIndexOf_toNat (by rw [hw.2]; exact hne) ho hw.1

theorem computeDiff_terminating_witness :
    ((0 : Nat) < (["x"] : List String).length ∨ (0 : Nat) < ([] : List String).length) ∧
    ((∃ emitted i2 j2 oldN2 newN2,
      diffLoop ["x"] [] 0 0 1 1 =
        emitted ++ diffLoop ["x"] [] i2 j2 oldN2 newN2 ∧ 0 + 0 < i2 + j2) ∧
    ((0 : Nat) < ([] : List String).length →
      (["x"] : List String).getD 0 "" ≠ ([] : List String).getD 0 "" →
      0 ≤ foundInMod ["x"] [] 0 0 → 1 ≤ (foundInMod ["x"] [] 0 0).toNat) ∧
    ((0 : Nat) < (["x"] : List String).length →
      (["x"] : List String).getD 0 "" ≠ ([] : List String).getD 0 "" →
      0 ≤ foundInOrig ["x"] [] 0 0 → 1 ≤ (foundInOrig ["x"] [] 0 0).toNat)) := by
  refine ⟨by decide, ?_⟩
  exact computeDiff_terminating ["x"] [] 0 0 1 1 (by decide)

end TeXai
